import Mathlib

/-!
Verification development for the demongrep hybrid code-search engine.

The Rust sources are embedded shallowly:

* `usize` values are modelled as `Nat` (the code only ever adds them with
  `saturating_add`, which agrees with `Nat` addition on representable values);
* `f32` scores are modelled as exact rationals `ℚ`; the score pipelines only
  add, divide and compare scores, never rely on rounding;
* Rust's stable `sort_by` is modelled by a stable insertion sort
  (`insertionSort`): for a total, transitive comparator a stable sort is
  uniquely determined, so any stable algorithm is an exact model;
* external collaborators that are not part of the vendored sources (the
  `vectordb` vector store, the tantivy index, the SHA-256 function of the
  `sha2` crate, the ONNX inference runtime) appear as explicit function
  parameters or abstract state, each documented at its declaration site.
-/

namespace Demongrep

/-! ## Stable sorting (model of Rust `slice::sort_by`)

Rust's `sort_by` is stable.  For a comparator that is a total preorder the
output of a stable sort is uniquely determined by the input, so the insertion
sort below is an exact model of the Rust call sites.  Lemmas: permutation,
membership, length, and sortedness for total transitive comparators. -/

def insertSorted (le : α → α → Bool) (x : α) : List α → List α
  | [] => [x]
  | y :: ys => if le x y then x :: y :: ys else y :: insertSorted le x ys

def insertionSort (le : α → α → Bool) : List α → List α
  | [] => []
  | x :: xs => insertSorted le x (insertionSort le xs)

theorem perm_insertSorted (le : α → α → Bool) (x : α) (l : List α) :
    (insertSorted le x l).Perm (x :: l) := by
  induction l with
  | nil => simp [insertSorted]
  | cons y ys ih =>
    unfold insertSorted
    by_cases h : le x y
    · simp [h]
    · simp only [h, if_neg, Bool.false_eq_true, if_false]
      exact (ih.cons y).trans (List.Perm.swap x y ys)

theorem perm_insertionSort (le : α → α → Bool) (l : List α) :
    (insertionSort le l).Perm l := by
  induction l with
  | nil => simp [insertionSort]
  | cons x xs ih =>
    exact (perm_insertSorted le x (insertionSort le xs)).trans (ih.cons x)

theorem mem_insertionSort (le : α → α → Bool) (l : List α) (a : α) :
    a ∈ insertionSort le l ↔ a ∈ l :=
  (perm_insertionSort le l).mem_iff

theorem length_insertionSort (le : α → α → Bool) (l : List α) :
    (insertionSort le l).length = l.length :=
  (perm_insertionSort le l).length_eq

theorem pairwise_insertSorted (le : α → α → Bool)
    (htrans : ∀ a b c, le a b = true → le b c = true → le a c = true)
    (htot : ∀ a b, le a b = true ∨ le b a = true)
    (x : α) (l : List α) (hl : l.Pairwise (fun a b => le a b = true)) :
    (insertSorted le x l).Pairwise (fun a b => le a b = true) := by
  induction l with
  | nil => simp [insertSorted]
  | cons y ys ih =>
    rcases List.pairwise_cons.mp hl with ⟨hy, hys⟩
    unfold insertSorted
    by_cases h : le x y
    · simp only [h, if_true]
      refine List.pairwise_cons.mpr ⟨?_, hl⟩
      intro z hz
      rcases List.mem_cons.mp hz with rfl | hz
      · exact h
      · exact htrans x y z h (hy z hz)
    · simp only [h, Bool.false_eq_true, if_false]
      refine List.pairwise_cons.mpr ⟨?_, ih hys⟩
      intro z hz
      rcases List.mem_cons.mp ((perm_insertSorted le x ys).mem_iff.mp hz) with
        rfl | hz
      · rcases htot z y with hxz | hzx
        · exact absurd hxz h
        · exact hzx
      · exact hy z hz

theorem pairwise_insertionSort (le : α → α → Bool)
    (htrans : ∀ a b c, le a b = true → le b c = true → le a c = true)
    (htot : ∀ a b, le a b = true ∨ le b a = true) (l : List α) :
    (insertionSort le l).Pairwise (fun a b => le a b = true) := by
  induction l with
  | nil => simp [insertionSort]
  | cons x xs ih => exact pairwise_insertSorted le htrans htot x _ ih

/-! ## Data model

`vectordb::SearchResult` as consumed by the database manager and the search
orchestrator.  Only the fields the verified code paths read are modelled. -/

/-- One vector-store hit (`vectordb::SearchResult`): chunk id, stored path,
1-indexed line span and an `f32` score modelled as `ℚ`. -/
structure SearchResult where
  id : Nat
  path : String
  start_line : Nat
  end_line : Nat
  score : ℚ
  deriving DecidableEq, Repr

/-- Comparator of `src/database/mod.rs` lines 221-225 (and 307-311):
`b.score.partial_cmp(&a.score).unwrap_or(Equal)`, i.e. descending by score,
ties keeping the original (stable) order.  On `ℚ` the comparison is total. -/
def scoreDescLe (a b : SearchResult) : Bool := decide (b.score ≤ a.score)

theorem scoreDescLe_trans (a b c : SearchResult) :
    scoreDescLe a b = true → scoreDescLe b c = true → scoreDescLe a c = true := by
  simp only [scoreDescLe, decide_eq_true_eq]
  intro h1 h2
  exact le_trans h2 h1

theorem scoreDescLe_total (a b : SearchResult) :
    scoreDescLe a b = true ∨ scoreDescLe b a = true := by
  simp only [scoreDescLe, decide_eq_true_eq]
  exact le_total b.score a.score

/-! ## DatabaseManager federation (`src/database/mod.rs`)

A member store's vector search is abstracted as a function from the retrieval
limit to either a result list or an error (`VectorStore::search` lives in the
external `vectordb` module).  The query embedding is fixed inside the
abstraction, so quantifying over `StoreSearch` quantifies over all queries. -/

/-- One store's `store.search(query_embedding, retrieval_limit)`, query fixed. -/
def StoreSearch : Type := Nat → Except String (List SearchResult)

/-- The accumulation loop of `DatabaseManager::search_all` (lines 205-218):
append each store's results, skipping stores whose search errors. -/
def gatherResults (stores : List StoreSearch) (retrievalLimit : Nat) :
    List SearchResult :=
  stores.foldl
    (fun acc s =>
      match s retrievalLimit with
      | .ok results => acc ++ results
      | .error _ => acc)
    []

/-- Model of `DatabaseManager::search_all` (`src/database/mod.rs` lines 196-232): each
store is searched with `limit.saturating_add(offset)`, the results are
concatenated, sorted by descending score, then paginated with
`skip(offset).take(limit)`.  There is no deduplication step. -/
def DatabaseManager.search_all (stores : List StoreSearch)
    (limit offset : Nat) : List SearchResult :=
  let retrieval_limit := limit + offset
  let all_results := gatherResults stores retrieval_limit
  let all_results := insertionSort scoreDescLe all_results
  (all_results.drop offset).take limit

/-- Claim C3. For every federated store family (hence every query vector) and
every `limit` and `offset`, `search_all(q, limit, offset)` equals the sublist
`[offset, offset+limit)` of `search_all(q, limit+offset, 0)`. -/
theorem search_all_pagination_slice (stores : List StoreSearch)
    (limit offset : Nat) :
    DatabaseManager.search_all stores limit offset =
      ((DatabaseManager.search_all stores (limit + offset) 0).drop offset).take
        limit := by
  unfold DatabaseManager.search_all
  simp only [Nat.add_zero, List.drop_zero]
  rw [List.drop_take, Nat.add_sub_cancel, List.take_take, min_self]

/-! ## Claim C2: does `search_all` deduplicate?

The spec claims `search_all` deduplicates by `(normalized_path, start_line,
end_line)` keeping the highest score before sorting and paginating.  The code
of `search_all` (lines 196-232) has no deduplication step; the dedup loop
exists only in `hybrid_search_all` (lines 289-304).  `search_all_claimed`
below formalises the claimed behaviour for comparison. -/

/-- Deduplication key used by the spec's claim (and by the dedup loop of
`hybrid_search_all`, line 295). -/
def dedupKey (r : SearchResult) : String × Nat × Nat :=
  (r.path, r.start_line, r.end_line)

/-- One step of the keep-highest-score dedup loop (`src/database/mod.rs`
lines 294-304): replace the first entry with the same key when the new score
is strictly higher, append otherwise-unseen keys. -/
def dedupStep (acc : List SearchResult) (r : SearchResult) :
    List SearchResult :=
  match acc.findIdx? (fun x => decide (dedupKey x = dedupKey r)) with
  | some i => if (acc.getD i r).score < r.score then acc.set i r else acc
  | none => acc ++ [r]

/-- Keep-highest-score deduplication by `dedupKey` over a whole list. -/
def dedupKeepMax (l : List SearchResult) : List SearchResult :=
  l.foldl dedupStep []

/-- The behaviour claim C2 ascribes to `search_all`, following the spec's
words: concatenate, deduplicate keeping the highest score, sort descending,
then paginate.  Written only to be compared against the code's
`DatabaseManager.search_all`. -/
def search_all_claimed (stores : List StoreSearch) (limit offset : Nat) :
    List SearchResult :=
  let all := gatherResults stores (limit + offset)
  ((insertionSort scoreDescLe (dedupKeepMax all)).drop offset).take limit

/-- Concrete duplicate-key hit returned by the first store. -/
def searchAllCexR1 : SearchResult :=
  { id := 1, path := "a.rs", start_line := 1, end_line := 5, score := 2 }

/-- Concrete duplicate-key hit returned by the second store. -/
def searchAllCexR2 : SearchResult :=
  { id := 2, path := "a.rs", start_line := 1, end_line := 5, score := 1 }

/-- Two federated stores whose hits share one `(path, start_line, end_line)`
key with different scores. -/
def searchAllCexStores : List StoreSearch :=
  [fun _ => .ok [searchAllCexR1], fun _ => .ok [searchAllCexR2]]

/-- Claim C2, counterexample.  On two stores returning hits with the same
`(path, start_line, end_line)` key, `search_all` returns both hits: it does
not deduplicate, so its output differs from the claimed
concatenate-dedup-sort-paginate pipeline at this input. -/
theorem search_all_dedup_counterexample :
    DatabaseManager.search_all searchAllCexStores 2 0 =
        [searchAllCexR1, searchAllCexR2] ∧
      dedupKey searchAllCexR1 = dedupKey searchAllCexR2 ∧
      searchAllCexR1 ≠ searchAllCexR2 ∧
      DatabaseManager.search_all searchAllCexStores 2 0 ≠
        search_all_claimed searchAllCexStores 2 0 := by
  refine ⟨?_, ?_, ?_, ?_⟩ <;> decide

/-- Claim C2, amended.  `DatabaseManager.search_all` concatenates the
per-store results (each store queried with `limit + offset`), sorts them by
descending score, and only then applies `offset` and `limit`; it performs no
deduplication, and every returned hit is one of the gathered per-store hits. -/
theorem search_all_amended (stores : List StoreSearch) (limit offset : Nat) :
    (DatabaseManager.search_all stores limit offset).Pairwise
        (fun a b => b.score ≤ a.score) ∧
      DatabaseManager.search_all stores limit offset =
        ((insertionSort scoreDescLe
            (gatherResults stores (limit + offset))).drop offset).take limit ∧
      ∀ r ∈ DatabaseManager.search_all stores limit offset,
        r ∈ gatherResults stores (limit + offset) := by
  refine ⟨?_, rfl, ?_⟩
  · have hp := pairwise_insertionSort scoreDescLe scoreDescLe_trans
      scoreDescLe_total (gatherResults stores (limit + offset))
    have hsub :
        (DatabaseManager.search_all stores limit offset).Sublist
          (insertionSort scoreDescLe (gatherResults stores (limit + offset))) :=
      (List.take_sublist _ _).trans (List.drop_sublist _ _)
    exact (List.Pairwise.sublist hsub hp).imp fun h => by
      simpa [scoreDescLe] using h
  · intro r hr
    have hsub :
        (DatabaseManager.search_all stores limit offset).Sublist
          (insertionSort scoreDescLe (gatherResults stores (limit + offset))) :=
      (List.take_sublist _ _).trans (List.drop_sublist _ _)
    exact (mem_insertionSort _ _ _).mp (hsub.mem hr)

/-! ## Search orchestrator tail: pagination and per-file grouping
(`src/search/mod.rs` lines 335-339 and 456-491)

After dedup, sort, rerank and filters, `search` paginates with
`skip(offset).take(max_results)` (line 338) and only afterwards — in the
human-readable output path, and only when `per_file > 0 && per_file <
max_results` — groups the paginated results by file, orders files by their
best score, and prints at most `per_file` hits per file.  The Rust grouping
uses a `HashMap` whose iteration order is unspecified before the sort by max
score; the model below fixes first-occurrence order, which coincides with the
code's observable output whenever the files' best scores are distinct (the
stable sort then determines the order completely), as they are in every
concrete input used here. -/

/-- Grouping of hits by `path`, first-occurrence key order, each group in
input order (model of the `by_file` HashMap of lines 458-463).  Structured
with explicit fuel so that it evaluates by kernel reduction. -/
def groupByPathAux : Nat → List SearchResult → List (String × List SearchResult)
  | 0, _ => []
  | _ + 1, [] => []
  | fuel + 1, r :: rest =>
      (r.path, r :: rest.filter (fun x => decide (x.path = r.path))) ::
        groupByPathAux fuel (rest.filter (fun x => decide (¬x.path = r.path)))

/-- Grouping of hits by path with enough fuel for the whole list. -/
def groupByPath (l : List SearchResult) : List (String × List SearchResult) :=
  groupByPathAux l.length l

theorem groupByPathAux_path_eq (fuel : Nat) (l : List SearchResult)
    (g : String × List SearchResult) (hg : g ∈ groupByPathAux fuel l)
    (x : SearchResult) (hx : x ∈ g.2) : x.path = g.1 := by
  induction fuel generalizing l with
  | zero => simp [groupByPathAux] at hg
  | succ n ih =>
    cases l with
    | nil => simp [groupByPathAux] at hg
    | cons r rest =>
      simp only [groupByPathAux, List.mem_cons] at hg
      rcases hg with rfl | hg
      · rcases List.mem_cons.mp hx with rfl | hx
        · rfl
        · simpa using List.of_mem_filter hx
      · exact ih _ hg

theorem groupByPathAux_mem (fuel : Nat) (l : List SearchResult)
    (g : String × List SearchResult) (hg : g ∈ groupByPathAux fuel l)
    (x : SearchResult) (hx : x ∈ g.2) : x ∈ l := by
  induction fuel generalizing l with
  | zero => simp [groupByPathAux] at hg
  | succ n ih =>
    cases l with
    | nil => simp [groupByPathAux] at hg
    | cons r rest =>
      simp only [groupByPathAux, List.mem_cons] at hg
      rcases hg with rfl | hg
      · rcases List.mem_cons.mp hx with rfl | hx
        · exact List.mem_cons_self _ _
        · exact List.mem_cons_of_mem _ (List.mem_of_mem_filter hx)
      · exact List.mem_cons_of_mem _ (List.mem_of_mem_filter (ih _ hg))

theorem groupByPathAux_key_mem (fuel : Nat) (l : List SearchResult)
    (g : String × List SearchResult) (hg : g ∈ groupByPathAux fuel l) :
    g.1 ∈ l.map SearchResult.path := by
  induction fuel generalizing l with
  | zero => simp [groupByPathAux] at hg
  | succ n ih =>
    cases l with
    | nil => simp [groupByPathAux] at hg
    | cons r rest =>
      simp only [groupByPathAux, List.mem_cons] at hg
      rcases hg with rfl | hg
      · simp
      · have := ih _ hg
        rcases List.mem_map.mp this with ⟨x, hx, hxp⟩
        exact List.mem_map.mpr
          ⟨x, List.mem_cons_of_mem _ (List.mem_of_mem_filter hx), hxp⟩

theorem groupByPathAux_keys_nodup (fuel : Nat) (l : List SearchResult) :
    ((groupByPathAux fuel l).map Prod.fst).Nodup := by
  induction fuel generalizing l with
  | zero => simp [groupByPathAux]
  | succ n ih =>
    cases l with
    | nil => simp [groupByPathAux]
    | cons r rest =>
      simp only [groupByPathAux, List.map_cons, List.nodup_cons]
      refine ⟨?_, ih _⟩
      intro hmem
      rcases List.mem_map.mp hmem with ⟨g, hg, hkey⟩
      have hk := groupByPathAux_key_mem n _ g hg
      rcases List.mem_map.mp hk with ⟨x, hx, hxp⟩
      have hne := List.of_mem_filter hx
      simp only [decide_eq_true_eq] at hne
      exact hne (hxp.trans hkey)

/-- Best score of a file's hits, as computed on line 469:
`iter().map(score).fold(0.0f32, f32::max)` — note the fold starts at `0`. -/
def maxScore0 (rs : List SearchResult) : ℚ :=
  rs.foldl (fun m r => max m r.score) 0

/-- Comparator of the file sort (lines 466-472): descending by best score. -/
def fileDescLe (a b : String × List SearchResult) : Bool :=
  decide (maxScore0 b.2 ≤ maxScore0 a.2)

theorem fileDescLe_trans (a b c : String × List SearchResult) :
    fileDescLe a b = true → fileDescLe b c = true → fileDescLe a c = true := by
  simp only [fileDescLe, decide_eq_true_eq]
  intro h1 h2
  exact le_trans h2 h1

theorem fileDescLe_total (a b : String × List SearchResult) :
    fileDescLe a b = true ∨ fileDescLe b a = true := by
  simp only [fileDescLe, decide_eq_true_eq]
  exact le_total _ _

/-- Tail of `search` (`src/search/mod.rs` lines 335-339 and 456-491): first
paginate the ranked results with `skip(offset).take(max_results)`, then — only
when `per_file > 0 && per_file < max_results` — group the paginated hits by
file, order files by best score descending, and keep the `per_file` best hits
of each file. -/
def search_paginate_and_group (results : List SearchResult)
    (offset maxResults perFile : Nat) : List SearchResult :=
  let paginated := (results.drop offset).take maxResults
  if 0 < perFile ∧ perFile < maxResults then
    let files := insertionSort fileDescLe (groupByPath paginated)
    files.flatMap (fun g => (insertionSort scoreDescLe g.2).take perFile)
  else
    paginated

/-- The behaviour claim C6 ascribes to the pipeline, following the spec's
words: diversify first — keeping at most `p` hits per path while preserving
the ranking order — and only then paginate.  The auxiliary function carries
the per-path counters. -/
def diversifySpecAux (p : Nat) :
    List SearchResult → List (String × Nat) → List SearchResult
  | [], _ => []
  | r :: rest, counts =>
      let c := (counts.lookup r.path).getD 0
      if c < p then
        r :: diversifySpecAux p rest ((r.path, c + 1) :: counts)
      else
        diversifySpecAux p rest counts

/-- Order-preserving per-file diversification, as the spec describes it. -/
def diversify_spec (p : Nat) (l : List SearchResult) : List SearchResult :=
  diversifySpecAux p l []

/-- The pipeline order claim C6 asserts: diversify, then paginate. -/
def search_claimed_pipeline (results : List SearchResult)
    (offset maxResults perFile : Nat) : List SearchResult :=
  ((diversify_spec perFile results).drop offset).take maxResults

/-- Top hit of file `a.rs` in the diversification counterexamples. -/
def divCexA1 : SearchResult :=
  { id := 1, path := "a.rs", start_line := 1, end_line := 2, score := 4 }

/-- Second hit of file `a.rs` in the diversification counterexamples. -/
def divCexA2 : SearchResult :=
  { id := 2, path := "a.rs", start_line := 3, end_line := 4, score := 3 }

/-- Only hit of file `b.rs` in the diversification counterexamples. -/
def divCexB1 : SearchResult :=
  { id := 3, path := "b.rs", start_line := 1, end_line := 2, score := 2 }

/-- Claim C6, counterexample.  First input (`per_file = 1`, `limit = 2`,
ranking `[A1, A2, B1]` with `A1, A2` in `a.rs`): the code paginates before
grouping and outputs `[A1]`, while the claimed diversify-then-paginate
pipeline outputs `[A1, B1]`.  Second input (`per_file = 2`, `limit = 3`,
ranking `[A1, B1, A2]`): the code regroups by file and outputs
`[A1, A2, B1]`, not the order-preserving `[A1, B1, A2]` the claim requires. -/
theorem search_per_file_counterexample :
    search_paginate_and_group [divCexA1, divCexA2, divCexB1] 0 2 1 =
        [divCexA1] ∧
      search_claimed_pipeline [divCexA1, divCexA2, divCexB1] 0 2 1 =
        [divCexA1, divCexB1] ∧
      search_paginate_and_group [divCexA1, divCexA2, divCexB1] 0 2 1 ≠
        search_claimed_pipeline [divCexA1, divCexA2, divCexB1] 0 2 1 ∧
      search_paginate_and_group [divCexA1, divCexB1, divCexA2] 0 3 2 =
        [divCexA1, divCexA2, divCexB1] ∧
      search_claimed_pipeline [divCexA1, divCexB1, divCexA2] 0 3 2 =
        [divCexA1, divCexB1, divCexA2] ∧
      search_paginate_and_group [divCexA1, divCexB1, divCexA2] 0 3 2 ≠
        search_claimed_pipeline [divCexA1, divCexB1, divCexA2] 0 3 2 := by
  refine ⟨?_, ?_, ?_, ?_, ?_, ?_⟩ <;> decide

theorem countP_flatMap_groups (q : String) (p : Nat)
    (gs : List (String × List SearchResult))
    (hkeys : (gs.map Prod.fst).Nodup)
    (hmem : ∀ g ∈ gs, ∀ x ∈ g.2, x.path = g.1) :
    (gs.flatMap
        (fun g => (insertionSort scoreDescLe g.2).take p)).countP
      (fun r => decide (r.path = q)) ≤ p := by
  induction gs with
  | nil => simp
  | cons g gs ih =>
    simp only [List.flatMap_cons, List.countP_append]
    have hkeys2 : (g.1 :: gs.map Prod.fst).Nodup := by
      rw [List.map_cons] at hkeys
      exact hkeys
    have hgq : g.1 ∉ gs.map Prod.fst := (List.nodup_cons.mp hkeys2).1
    have hkeys' := (List.nodup_cons.mp hkeys2).2
    have hmem' : ∀ g' ∈ gs, ∀ x ∈ g'.2, x.path = g'.1 :=
      fun g' hg' => hmem g' (List.mem_cons_of_mem _ hg')
    by_cases hq : g.1 = q
    · have htail :
          (gs.flatMap
              (fun g => (insertionSort scoreDescLe g.2).take p)).countP
            (fun r => decide (r.path = q)) = 0 := by
        rw [List.countP_eq_zero]
        intro r hr
        rcases List.mem_flatMap.mp hr with ⟨g', hg', hrg'⟩
        have hrin : r ∈ g'.2 :=
          (mem_insertionSort _ _ _).mp ((List.take_sublist _ _).mem hrg')
        have hpath := hmem' g' hg' r hrin
        have hkey_ne : g'.1 ≠ q := by
          intro hEq
          have hqin : q ∈ gs.map Prod.fst := List.mem_map.mpr ⟨g', hg', hEq⟩
          exact hgq (hq ▸ hqin)
        simp [hpath, hkey_ne]
      have hhead :
          ((insertionSort scoreDescLe g.2).take p).countP
            (fun r => decide (r.path = q)) ≤ p :=
        le_trans (List.countP_le_length _) (by
          simp [List.length_take_le])
      omega
    · have hhead :
          ((insertionSort scoreDescLe g.2).take p).countP
            (fun r => decide (r.path = q)) = 0 := by
        rw [List.countP_eq_zero]
        intro r hr
        have hrin : r ∈ g.2 :=
          (mem_insertionSort _ _ _).mp ((List.take_sublist _ _).mem hr)
        have hpath := hmem g (List.mem_cons_self _ _) r hrin
        simp [hpath, hq]
      have := ih hkeys' hmem'
      omega

/-- Claim C6, amended.  In the pipeline, `per_file` grouping is applied after
`offset`/`limit` (it reorders only the already-paginated hits); whenever
`per_file > 0` the output contains at most `per_file` hits from any single
path, and every output hit belongs to the paginated slice
`skip(offset).take(max_results)` of the pre-diversification ranking. -/
theorem search_per_file_amended (results : List SearchResult)
    (offset maxResults perFile : Nat) (hp : 0 < perFile) :
    (∀ q : String,
        (search_paginate_and_group results offset maxResults perFile).countP
          (fun r => decide (r.path = q)) ≤ perFile) ∧
      ∀ r ∈ search_paginate_and_group results offset maxResults perFile,
        r ∈ (results.drop offset).take maxResults := by
  unfold search_paginate_and_group
  by_cases hcond : 0 < perFile ∧ perFile < maxResults
  · simp only [hcond, if_true]
    constructor
    · intro q
      apply countP_flatMap_groups
      · have hperm :
            ((insertionSort fileDescLe
                (groupByPath ((results.drop offset).take maxResults))).map
              Prod.fst).Perm
              ((groupByPath ((results.drop offset).take maxResults)).map
                Prod.fst) :=
          (perm_insertionSort _ _).map _
        exact hperm.nodup_iff.mpr (groupByPathAux_keys_nodup _ _)
      · intro g hg x hx
        exact groupByPathAux_path_eq _ _ g
          ((mem_insertionSort _ _ _).mp hg) x hx
    · intro r hr
      rcases List.mem_flatMap.mp hr with ⟨g, hg, hrg⟩
      have hrin : r ∈ g.2 :=
        (mem_insertionSort _ _ _).mp ((List.take_sublist _ _).mem hrg)
      exact groupByPathAux_mem _ _ g ((mem_insertionSort _ _ _).mp hg) r hrin
  · simp only [hcond, if_false]
    have hmax : maxResults ≤ perFile := by
      rcases Nat.lt_or_ge perFile maxResults with h | h
      · exact absurd ⟨hp, h⟩ hcond
      · exact h
    refine ⟨fun q => ?_, fun r hr => hr⟩
    exact le_trans (List.countP_le_length _)
      (le_trans (by simp [List.length_take_le]) hmax)

/-- Witness for the C6 theorem at a concrete input with `per_file = 1`. -/
theorem search_per_file_amended_witness :
    0 < 1 ∧
      ((∀ q : String,
          (search_paginate_and_group [divCexA1, divCexA2, divCexB1] 0 2
              1).countP (fun r => decide (r.path = q)) ≤ 1) ∧
        ∀ r ∈ search_paginate_and_group [divCexA1, divCexA2, divCexB1] 0 2 1,
          r ∈ (([divCexA1, divCexA2, divCexB1].drop 0).take 2)) :=
  ⟨by decide, search_per_file_amended [divCexA1, divCexA2, divCexB1] 0 2 1
    (by decide)⟩

/-! ## Reciprocal Rank Fusion (claim C4)

The `rerank` module (`rrf_fusion`, `FusedResult`) is part of this repository
but its source file is not among the vendored files — only its callers in
`src/database/mod.rs` and `src/search/mod.rs` are.  The definitions below are
therefore modelled from the spec's description (spec section 4.8). -/

/-- One entry of a ranked input list (vector or FTS side), keyed by
`chunk_id`, with its source score.  Rank is 1-based list position. -/
structure RankedHit where
  chunk_id : Nat
  score : ℚ
  deriving DecidableEq, Repr

/-- Fused entry between fusion and materialization (spec section 3,
`FusedResult`): chunk id, RRF score, and the per-source scores and ranks kept
for explainability. -/
structure FusedResult where
  chunk_id : Nat
  rrf_score : ℚ
  vector_score : Option ℚ
  fts_score : Option ℚ
  vector_rank : Option Nat
  fts_rank : Option Nat
  deriving DecidableEq, Repr

/-- Modelled from the spec: 1-based rank of a chunk id in a ranked list
(`rank_source`), `none` when absent (the spec's rank ∞). -/
def rankIn (l : List RankedHit) (c : Nat) : Option Nat :=
  (l.findIdx? (fun h => h.chunk_id == c)).map (fun i => i + 1)

/-- Modelled from the spec: the source score attached to a chunk id. -/
def scoreIn (l : List RankedHit) (c : Nat) : Option ℚ :=
  (l.find? (fun h => h.chunk_id == c)).map RankedHit.score

/-- Modelled from the spec: one source's summand `1 / (k + rank_source)`; an
absent rank (∞) contributes nothing. -/
def rrfContribution (k : ℚ) : Option Nat → ℚ
  | none => 0
  | some r => 1 / (k + (r : ℚ))

/-- Modelled from the spec: the fused score
`Σ_source 1 / (k + rank_source)` of a chunk id. -/
def fusedScore (k : ℚ) (v f : List RankedHit) (c : Nat) : ℚ :=
  rrfContribution k (rankIn v c) + rrfContribution k (rankIn f c)

/-- Modelled from the spec: candidate chunk ids of the fusion — every id of
either list, without duplicates, vector side first. -/
def fusionCandidates (v f : List RankedHit) : List Nat :=
  let vIds := v.map RankedHit.chunk_id
  let fIds := f.map RankedHit.chunk_id
  vIds ++ fIds.filter (fun c => decide (¬c ∈ vIds))

/-- Modelled from the spec: the `FusedResult` materialised for one chunk id,
carrying per-source scores and ranks. -/
def mkFused (k : ℚ) (v f : List RankedHit) (c : Nat) : FusedResult :=
  { chunk_id := c
    rrf_score := fusedScore k v f c
    vector_score := scoreIn v c
    fts_score := scoreIn f c
    vector_rank := rankIn v c
    fts_rank := rankIn f c }

/-- Modelled from the spec: the sort key of the fused ordering — descending
RRF score, ties broken by descending vector score (absent vector score last),
then by ascending chunk id — encoded as a lexicographic product. -/
def fusedKey (r : FusedResult) : Lex (ℚ × Lex (ℚ × Lex (ℚ × ℚ))) :=
  toLex (-r.rrf_score, toLex
    ((match r.vector_score with | some _ => 0 | none => 1), toLex
      ((match r.vector_score with | some s => -s | none => 0),
        (r.chunk_id : ℚ))))

/-- Modelled from the spec: total comparator of the fused ordering. -/
def fusedLe (a b : FusedResult) : Bool := decide (fusedKey a ≤ fusedKey b)

theorem fusedLe_trans (a b c : FusedResult) :
    fusedLe a b = true → fusedLe b c = true → fusedLe a c = true := by
  simp only [fusedLe, decide_eq_true_eq]
  exact le_trans

theorem fusedLe_total (a b : FusedResult) :
    fusedLe a b = true ∨ fusedLe b a = true := by
  simp only [fusedLe, decide_eq_true_eq]
  exact le_total _ _

/-- Modelled from the spec: `rrf_fusion` — fuse two ranked lists into
`FusedResult`s ordered by the RRF score with the deterministic tie-break. -/
def rrf_fusion (v f : List RankedHit) (k : ℚ) : List FusedResult :=
  insertionSort fusedLe ((fusionCandidates v f).map (mkFused k v f))

theorem mem_fusionCandidates (v f : List RankedHit) (c : Nat) :
    c ∈ fusionCandidates v f ↔
      c ∈ v.map RankedHit.chunk_id ∨ c ∈ f.map RankedHit.chunk_id := by
  simp only [fusionCandidates, List.mem_append, List.mem_filter,
    decide_eq_true_eq]
  constructor
  · rintro (h | ⟨h, _⟩)
    · exact Or.inl h
    · exact Or.inr h
  · rintro (h | h)
    · exact Or.inl h
    · by_cases hv : c ∈ v.map RankedHit.chunk_id
      · exact Or.inl hv
      · exact Or.inr ⟨h, hv⟩

theorem mem_map_chunk_id_rrf_fusion (v f : List RankedHit) (k : ℚ) (c : Nat) :
    c ∈ (rrf_fusion v f k).map FusedResult.chunk_id ↔
      c ∈ v.map RankedHit.chunk_id ∨ c ∈ f.map RankedHit.chunk_id := by
  rw [← mem_fusionCandidates v f c]
  unfold rrf_fusion
  constructor
  · intro h
    rcases List.mem_map.mp h with ⟨fr, hfr, hc⟩
    rcases List.mem_map.mp ((mem_insertionSort _ _ _).mp hfr) with
      ⟨x, hx, hfx⟩
    have : fr.chunk_id = x := by rw [← hfx]; rfl
    rw [← hc, this]
    exact hx
  · intro h
    refine List.mem_map.mpr ⟨mkFused k v f c, ?_, rfl⟩
    exact (mem_insertionSort _ _ _).mpr (List.mem_map.mpr ⟨c, h, rfl⟩)

/-- Claim C4. RRF fusion orders its output by descending fused score
`Σ_source 1 / (k + rank_source)` with ties broken by vector score then chunk
id; a source in which an id is absent contributes nothing; an id present in
both lists at ranks `r_V` and `r_F` has fused score exactly
`1/(k+r_V) + 1/(k+r_F)`; and swapping the two sources leaves the fused
score of every id and the set of fused ids unchanged, so the fused ranking
agrees up to the deterministic tie-break. -/
theorem rrf_fusion_spec (v f : List RankedHit) (k : ℚ) :
    (rrf_fusion v f k).Pairwise (fun a b => fusedLe a b = true) ∧
      (rrf_fusion v f k).Pairwise (fun a b => b.rrf_score ≤ a.rrf_score) ∧
      (∀ fr ∈ rrf_fusion v f k,
        fr.rrf_score = fusedScore k v f fr.chunk_id ∧
          fr.vector_rank = rankIn v fr.chunk_id ∧
          fr.fts_rank = rankIn f fr.chunk_id ∧
          fr.vector_score = scoreIn v fr.chunk_id ∧
          fr.fts_score = scoreIn f fr.chunk_id) ∧
      (∀ c rV rF : Nat, rankIn v c = some rV → rankIn f c = some rF →
        fusedScore k v f c = 1 / (k + (rV : ℚ)) + 1 / (k + (rF : ℚ))) ∧
      (∀ c : Nat, rankIn v c = none →
        fusedScore k v f c = rrfContribution k (rankIn f c)) ∧
      (∀ c : Nat, fusedScore k v f c = fusedScore k f v c) ∧
      (∀ c : Nat, c ∈ (rrf_fusion v f k).map FusedResult.chunk_id ↔
        c ∈ (rrf_fusion f v k).map FusedResult.chunk_id) := by
  refine ⟨?_, ?_, ?_, ?_, ?_, ?_, ?_⟩
  · exact pairwise_insertionSort fusedLe fusedLe_trans fusedLe_total _
  · have hp := pairwise_insertionSort fusedLe fusedLe_trans fusedLe_total
      ((fusionCandidates v f).map (mkFused k v f))
    refine hp.imp ?_
    intro a b hab
    simp only [fusedLe, decide_eq_true_eq, fusedKey] at hab
    rcases (Prod.Lex.le_iff _ _).mp hab with h | ⟨h, _⟩
    · have := neg_lt_neg_iff.mp h
      exact le_of_lt this
    · have : a.rrf_score = b.rrf_score := by
        have := neg_injective h
        exact this.symm ▸ rfl
      exact le_of_eq this.symm
  · intro fr hfr
    rcases List.mem_map.mp ((mem_insertionSort _ _ _).mp hfr) with ⟨c, _, rfl⟩
    exact ⟨rfl, rfl, rfl, rfl, rfl⟩
  · intro c rV rF hV hF
    unfold fusedScore
    rw [hV, hF]
    rfl
  · intro c hV
    unfold fusedScore
    rw [hV]
    simp [rrfContribution]
  · intro c
    unfold fusedScore
    exact add_comm _ _
  · intro c
    rw [mem_map_chunk_id_rrf_fusion, mem_map_chunk_id_rrf_fusion]
    exact or_comm

/-- First ranked list (vector side) for the C4 witness. -/
def rrfWitV : List RankedHit := [{ chunk_id := 7, score := 9 }]

/-- Second ranked list (FTS side) for the C4 witness. -/
def rrfWitF : List RankedHit :=
  [{ chunk_id := 5, score := 8 }, { chunk_id := 7, score := 3 }]

/-- Witness for the C4 theorem: a chunk present in both lists at ranks 1 and
2 gets fused score `1/(k+1) + 1/(k+2)` for `k = 20`. -/
theorem rrf_fusion_spec_witness :
    rankIn rrfWitV 7 = some 1 ∧ rankIn rrfWitF 7 = some 2 ∧
      fusedScore 20 rrfWitV rrfWitF 7 =
        1 / (20 + ((1 : Nat) : ℚ)) + 1 / (20 + ((2 : Nat) : ℚ)) :=
  ⟨by decide, by decide,
    (rrf_fusion_spec rrfWitV rrfWitF 20).2.2.2.1 7 1 2 (by decide) (by decide)⟩

/-! ## Persistent embedding cache (claim C5)
(`src/embed/persistent_cache.rs`)

The SHA-256 digest of the `sha2` crate is an external dependency; it is
abstracted as the `hash` field, and the claimed consequence (a get under a
different model id always misses) is proved under the hypothesis that the
digest is collision-free on the keys in use (`Function.Injective hash`) —
exactly the guarantee SHA-256 is trusted for.  The LMDB table is a keyed
store modelled as an association list with upsert semantics. -/

/-- Cache handle: the digest function and the model short-name this handle
was opened with (`PersistentEmbeddingCache::new`). -/
structure PersistentEmbeddingCache where
  hash : String → String
  model_key : String

/-- The LMDB `embeddings` table shared by all handles on one directory. -/
def CacheStore : Type := List (String × List ℚ)

/-- Model of `PersistentEmbeddingCache::cache_key` (lines 48-54): digest of the
content hash, a `:` separator, and the model key. -/
def cache_key (cache : PersistentEmbeddingCache) (content_hash : String) :
    String :=
  cache.hash (content_hash ++ ":" ++ cache.model_key)

/-- Model of `PersistentEmbeddingCache::get` (lines 57-76): look the derived key up in
the table. -/
def cacheGet (cache : PersistentEmbeddingCache) (store : CacheStore)
    (content_hash : String) : Option (List ℚ) :=
  (store.find? (fun e => e.1 == cache_key cache content_hash)).map Prod.snd

/-- Model of `PersistentEmbeddingCache::put` (lines 79-86): upsert under the derived
key. -/
def cachePut (cache : PersistentEmbeddingCache) (store : CacheStore)
    (content_hash : String) (embedding : List ℚ) : CacheStore :=
  (cache_key cache content_hash, embedding) ::
    store.filter (fun e => !(e.1 == cache_key cache content_hash))

theorem find?_filter_of_imp (p q : α → Bool) (l : List α)
    (h : ∀ e, p e = true → q e = true) : (l.filter q).find? p = l.find? p := by
  induction l with
  | nil => rfl
  | cons x xs ih =>
    by_cases hq : q x = true
    · by_cases hp : p x = true
      · simp [List.filter_cons, hq, List.find?_cons, hp]
      · simp [List.filter_cons, hq, List.find?_cons, hp, ih]
    · have hp : p x = false := by
        cases hpx : p x
        · rfl
        · exact absurd (h x hpx) hq
      simp [List.filter_cons, hq, List.find?_cons, hp, ih]

/-- Claim C5.  The cache keys every entry by the digest of
`content_hash ++ ":" ++ model_id`; assuming the digest is collision-free,
two handles with distinct model ids derive distinct keys for the same content
hash, a put under one model id does not change what a get under the other
returns, and in particular a hash stored only under one model id yields
`none` under the other. -/
theorem cache_model_isolation (hash : String → String)
    (m1 m2 content_hash : String) (v : List ℚ) (store : CacheStore)
    (hinj : Function.Injective hash) (hne : m1 ≠ m2) :
    cache_key ⟨hash, m1⟩ content_hash ≠ cache_key ⟨hash, m2⟩ content_hash ∧
      cacheGet ⟨hash, m2⟩ (cachePut ⟨hash, m1⟩ store content_hash v)
          content_hash =
        cacheGet ⟨hash, m2⟩ store content_hash ∧
      cacheGet ⟨hash, m2⟩ (cachePut ⟨hash, m1⟩ [] content_hash v)
          content_hash = none := by
  have hkey : cache_key ⟨hash, m1⟩ content_hash ≠
      cache_key ⟨hash, m2⟩ content_hash := by
    intro hEq
    apply hne
    have hpre := hinj hEq
    have hdata : (content_hash ++ ":").data ++ m1.data =
        (content_hash ++ ":").data ++ m2.data := by
      have h1 := congrArg String.data hpre
      simpa [String.data_append] using h1
    have hd : m1.data = m2.data := List.append_cancel_left hdata
    cases m1
    cases m2
    exact congrArg String.mk hd
  refine ⟨hkey, ?_, ?_⟩
  · unfold cacheGet cachePut
    rw [List.find?_cons]
    have hhead :
        ((cache_key ⟨hash, m1⟩ content_hash, v).1 ==
          cache_key ⟨hash, m2⟩ content_hash) = false := by
      simpa using hkey
    rw [hhead]
    rw [find?_filter_of_imp]
    intro e he
    simp only [beq_iff_eq] at he
    have hne1 : e.1 ≠ cache_key ⟨hash, m1⟩ content_hash := by
      rw [he]
      exact fun h => hkey h.symm
    simpa using hne1
  · unfold cacheGet cachePut
    have hhead :
        ((cache_key ⟨hash, m1⟩ content_hash, v).1 ==
          cache_key ⟨hash, m2⟩ content_hash) = false := by
      simpa using hkey
    simp [List.find?_cons, hhead]

/-- Witness for the C5 theorem: the identity digest is injective, and a value
stored under model `model-a` is invisible to a handle opened with
`model-b`. -/
theorem cache_model_isolation_witness :
    Function.Injective (fun s : String => s) ∧ "model-a" ≠ "model-b" ∧
      cacheGet ⟨fun s => s, "model-b"⟩
          (cachePut ⟨fun s => s, "model-a"⟩ [] "h" [1]) "h" = none :=
  ⟨fun a b h => h, by decide,
    (cache_model_isolation (fun s => s) "model-a" "model-b" "h" [1] []
        (fun a b h => h) (by decide)).2.2⟩

/-! ## Code tokenizer (claim C8)
(`src/fts/code_tokenizer.rs`)

`tokenize_code` is translated over `List Char` (Rust iterates `char_indices`;
the byte offsets recorded in tantivy `Token`s do not affect the token texts
and are dropped).  Rust's Unicode `char::is_alphanumeric` is modelled by the
ASCII `Char.isAlphanum` — the Unicode tables of the Rust standard library are
an external dependency, and every split, case test and lowercasing in the
tokenizer itself is ASCII-only (`is_ascii_lowercase`, `to_ascii_lowercase`,
which is exactly Lean's `Char.toLower`). -/

/-- Model of `is_identifier_char` (lines 153-155): alphanumeric, `_`, or `-`. -/
def isIdentifierChar (c : Char) : Bool :=
  c.isAlphanum || c == '_' || c == '-'

/-- Scanner of the outer loop of `tokenize_code` (lines 53-69): accumulate
the current maximal run of identifier characters (reversed) and emit it when
a non-identifier character or the end of input is reached. -/
def identRunsGo : List Char → List Char → List (List Char)
  | [], acc => if acc.isEmpty then [] else [acc.reverse]
  | c :: cs, acc =>
      if isIdentifierChar c then identRunsGo cs (c :: acc)
      else if acc.isEmpty then identRunsGo cs []
      else acc.reverse :: identRunsGo cs []

/-- Maximal runs of identifier characters of the input. -/
def identRuns (text : List Char) : List (List Char) := identRunsGo text []

/-- Scanner of the snake/kebab split of `split_identifier` (lines 94-109):
cut at `_` and `-`, dropping empty segments. -/
def splitSnakeGo : List Char → List Char → List (List Char)
  | [], acc => if acc.isEmpty then [] else [acc.reverse]
  | c :: cs, acc =>
      if c == '_' || c == '-' then
        if acc.isEmpty then splitSnakeGo cs []
        else acc.reverse :: splitSnakeGo cs []
      else splitSnakeGo cs (c :: acc)

/-- Snake/kebab-case split of one identifier run. -/
def splitSnake (run : List Char) : List (List Char) := splitSnakeGo run []

/-- The two boundary tests of `split_camel_case` (lines 133-137):
lowercase-or-digit to uppercase, and acronym-to-word (upper, upper, then
lower). -/
def camelBoundary (prev cur next : Char) : Bool :=
  ((prev.isLower || prev.isDigit) && cur.isUpper) ||
    (prev.isUpper && cur.isUpper && next.isLower)

/-- Scanner of `split_camel_case` (lines 118-151): walk the segment keeping
the previous character, cut where `camelBoundary` holds; the lookahead at the
last character is the sentinel `'\0'` pushed by the Rust code. -/
def splitCamelGo (prev : Char) : List Char → List Char → List (List Char)
  | [], acc => [acc.reverse]
  | cur :: rest, acc =>
      if camelBoundary prev cur (rest.headD (Char.ofNat 0)) then
        acc.reverse :: splitCamelGo cur rest [cur]
      else splitCamelGo cur rest (cur :: acc)

/-- CamelCase/acronym split of one snake segment. -/
def splitCamel : List Char → List (List Char)
  | [] => []
  | c :: cs => splitCamelGo c cs [c]

/-- Model of `tokenize_code` (lines 49-92): take maximal identifier runs, split each
on snake/kebab separators then on camel boundaries, lowercase with
`to_ascii_lowercase`, and drop empty segments and empty terms. -/
def tokenize_code (text : List Char) : List String :=
  ((identRuns text).flatMap
      (fun run => (splitSnake run).flatMap splitCamel)).filterMap
    (fun seg =>
      if seg.isEmpty then none
      else
        let term := seg.map Char.toLower
        if term.isEmpty then none else some (String.mk term))

theorem char_ofNat_toNat_upper (n : Nat) (h1 : 65 ≤ n) (h2 : n ≤ 90) :
    (Char.ofNat (n + 32)).toNat = n + 32 := by
  have hv : (n + 32).isValidChar := Or.inl (by omega)
  rw [Char.ofNat, dif_pos hv]
  rfl

theorem char_toLower_idem (c : Char) : (c.toLower).toLower = c.toLower := by
  unfold Char.toLower
  by_cases h : c.toNat ≥ 65 ∧ c.toNat ≤ 90
  · rw [if_pos h]
    have ht : (Char.ofNat (c.toNat + 32)).toNat = c.toNat + 32 :=
      char_ofNat_toNat_upper c.toNat h.1 h.2
    rw [if_neg]
    rw [ht]
    omega
  · rw [if_neg h, if_neg h]

theorem map_toLower_idem (seg : List Char) :
    (seg.map Char.toLower).map Char.toLower = seg.map Char.toLower := by
  induction seg with
  | nil => rfl
  | cons c cs ih => simp [char_toLower_idem, ih]

/-- Claim C8.  The tokenizer takes maximal identifier runs, splits on
snake-case separators then on camelCase/acronym transitions, and lowercases
every emitted token (so every token is a fixed point of ASCII lowercasing);
in particular `HTTPServer` tokenizes to `["http", "server"]` and
`process_data` to `["process", "data"]`. -/
theorem tokenize_code_spec (s : List Char) :
    tokenize_code ("HTTPServer".data) = ["http", "server"] ∧
      tokenize_code ("process_data".data) = ["process", "data"] ∧
      ∀ t ∈ tokenize_code s, t.data.map Char.toLower = t.data := by
  refine ⟨by decide, by decide, ?_⟩
  intro t ht
  rcases List.mem_filterMap.mp ht with ⟨seg, _, hseg⟩
  by_cases h1 : seg.isEmpty
  · simp [h1] at hseg
  · by_cases h2 : (seg.map Char.toLower).isEmpty
    · simp [h1, h2] at hseg
    · simp only [h1, h2, Bool.false_eq_true, if_false, Option.some.injEq]
        at hseg
      rw [← hseg]
      exact map_toLower_idem seg

/-- Witness for the C8 theorem: the token `http` emitted for `HTTPServer` is
a fixed point of lowercasing. -/
theorem tokenize_code_spec_witness :
    "http" ∈ tokenize_code ("HTTPServer".data) ∧
      ("http").data.map Char.toLower = ("http").data :=
  ⟨by decide,
    (tokenize_code_spec ("HTTPServer".data)).2.2 "http" (by decide)⟩

/-! ## Embedder batching (claim C9)
(`src/embed/embedder.rs` lines 260-323)

The ONNX model call `self.model.embed(batch, None)` is an external
dependency; it is abstracted as a function from a mini-batch to its embedding
list, with the black-box contract (one embedding per input text) taken as a
hypothesis where needed.  Rust `slice::chunks` is modelled with explicit fuel
so that it evaluates by kernel reduction; `str::parse::<usize>` is modelled
by `String.toNat?`. -/

/-- Model of `FastEmbedder::resolve_batch_size` (lines 260-274): an environment
override is parsed with `parse().unwrap_or(256)`; otherwise the size is
chosen by model dimensionality. -/
def resolve_batch_size (dims : Nat) (envOverride : Option String) : Nat :=
  match envOverride with
  | some s => (s.toNat?).getD 256
  | none => if dims ≤ 384 then 256 else if dims ≤ 768 then 128 else 64

/-- Rust `slice::chunks(batchSize)` with explicit fuel. -/
def chunksAux (batchSize : Nat) : Nat → List α → List (List α)
  | 0, _ => []
  | _ + 1, [] => []
  | fuel + 1, x :: xs =>
      (x :: xs).take batchSize ::
        chunksAux batchSize fuel ((x :: xs).drop batchSize)

/-- Rust `slice::chunks(batchSize)`: consecutive mini-batches of at most
`batchSize` elements. -/
def listChunks (batchSize : Nat) (l : List α) : List (List α) :=
  chunksAux batchSize l.length l

/-- Model of `FastEmbedder::embed_batch_refs_chunked` (lines 299-323): early return on
empty input, then embed each mini-batch and concatenate the results in
order.  `model` abstracts `self.model.embed`. -/
def embed_batch_refs_chunked (model : List String → List (List ℚ))
    (texts : List String) (batchSize : Nat) : List (List ℚ) :=
  if texts.isEmpty then []
  else ((listChunks batchSize texts).map model).flatten

/-- Model of `FastEmbedder::embed_batch_refs` (lines 284-287): resolve the batch size,
then chunk. -/
def embed_batch_refs (model : List String → List (List ℚ))
    (texts : List String) (dims : Nat) (envOverride : Option String) :
    List (List ℚ) :=
  embed_batch_refs_chunked model texts (resolve_batch_size dims envOverride)

theorem chunksAux_flatten (batchSize fuel : Nat) (l : List α)
    (hbs : 0 < batchSize) (hfuel : l.length ≤ fuel) :
    (chunksAux batchSize fuel l).flatten = l := by
  induction fuel generalizing l with
  | zero =>
    have : l = [] := List.length_eq_zero.mp (Nat.le_zero.mp hfuel)
    subst this
    rfl
  | succ n ih =>
    cases l with
    | nil => rfl
    | cons x xs =>
      simp only [chunksAux, List.flatten_cons]
      rw [ih _ (by simp at hfuel ⊢; omega)]
      exact List.take_append_drop _ _

theorem chunksAux_sizes (batchSize fuel : Nat) (l : List α)
    (hbs : 0 < batchSize) :
    ∀ c ∈ chunksAux batchSize fuel l, c.length ≤ batchSize ∧ c ≠ [] := by
  induction fuel generalizing l with
  | zero => intro c hc; simp [chunksAux] at hc
  | succ n ih =>
    cases l with
    | nil => intro c hc; simp [chunksAux] at hc
    | cons x xs =>
      intro c hc
      rcases List.mem_cons.mp hc with rfl | hc
      · refine ⟨by rw [List.length_take]; exact min_le_left _ _, ?_⟩
        cases hbz : batchSize with
        | zero => omega
        | succ m => simp [List.take_cons]
      · exact ih _ c hc

theorem flatten_map_length (model : List String → List (List ℚ))
    (hlen : ∀ b, (model b).length = b.length)
    (cs : List (List String)) :
    ((cs.map model).flatten).length = (cs.flatten).length := by
  induction cs with
  | nil => rfl
  | cons c cs ih => simp [hlen, ih]

/-- Claim C9.  With no override, the batch size is 256 for dimensionality at
most 384, 128 for at most 768, and 64 otherwise; `embed_batch` splits the
input into consecutive mini-batches of that size (each non-empty and of at
most that length, concatenating back to the input), returns the
concatenation of the per-mini-batch results in input order, and — given the
inference contract of one embedding per text — has output length equal to
the input length. -/
theorem embed_batch_spec (model : List String → List (List ℚ))
    (texts : List String) (dims : Nat)
    (hlen : ∀ b, (model b).length = b.length) :
    resolve_batch_size dims none =
        (if dims ≤ 384 then 256 else if dims ≤ 768 then 128 else 64) ∧
      0 < resolve_batch_size dims none ∧
      (listChunks (resolve_batch_size dims none) texts).flatten = texts ∧
      (∀ c ∈ listChunks (resolve_batch_size dims none) texts,
        c.length ≤ resolve_batch_size dims none ∧ c ≠ []) ∧
      embed_batch_refs model texts dims none =
        ((listChunks (resolve_batch_size dims none) texts).map
            model).flatten ∧
      (embed_batch_refs model texts dims none).length = texts.length := by
  have hbs : 0 < resolve_batch_size dims none := by
    have hr : resolve_batch_size dims none =
        (if dims ≤ 384 then 256 else if dims ≤ 768 then 128 else 64) := rfl
    rw [hr]
    by_cases h1 : dims ≤ 384
    · simp [h1]
    · by_cases h2 : dims ≤ 768 <;> simp [h1, h2]
  have hflat : (listChunks (resolve_batch_size dims none) texts).flatten =
      texts :=
    chunksAux_flatten _ _ _ hbs (le_refl _)
  have heq : embed_batch_refs model texts dims none =
      ((listChunks (resolve_batch_size dims none) texts).map model).flatten := by
    unfold embed_batch_refs embed_batch_refs_chunked
    by_cases he : texts.isEmpty
    · have : texts = [] := by simpa using he
      subst this
      rfl
    · simp [he]
  refine ⟨rfl, hbs, hflat, chunksAux_sizes _ _ _ hbs, heq, ?_⟩
  rw [heq, flatten_map_length model hlen, hflat]

/-- Witness for the C9 theorem at dimensionality 384, a two-text input and a
length-preserving inference stub. -/
theorem embed_batch_spec_witness :
    (∀ b : List String,
        ((fun batch : List String => batch.map (fun _ => ([] : List ℚ)))
              b).length = b.length) ∧
      resolve_batch_size 384 none = 256 ∧
      (embed_batch_refs
          (fun batch : List String => batch.map (fun _ => ([] : List ℚ)))
          ["a", "b"] 384 none).length = (["a", "b"] : List String).length := by
  refine ⟨fun b => by simp, ?_, ?_⟩
  · exact (embed_batch_spec
      (fun batch : List String => batch.map (fun _ => ([] : List ℚ)))
      ["a", "b"] 384 (fun b => by simp)).1.trans (by decide)
  · exact (embed_batch_spec
      (fun batch : List String => batch.map (fun _ => ([] : List ℚ)))
      ["a", "b"] 384 (fun b => by simp)).2.2.2.2.2

/-! ## Indexer (claims C1 and C7)
(`src/index/mod.rs` lines 222-717)

The `index` run is modelled as the sequence of store-mutating calls it
issues, in program order, together with its result.  `VectorStore` and
`FtsStore` internals live outside the vendored sources; modelled from the
spec: `get_db_metadata` returns the stored per-database `DbMetadata`
(spec sections 3 and 4.5), and the outcome of the per-file
`check_file_needs_reindex` scan and of chunking/embedding (which touch no
store) are taken as inputs (`filesToIndex`, `filesToDelete`, `newChunks`). -/

/-- Stored per-database metadata, as compared on lines 368-387. -/
structure DbMetadata where
  model_name : String
  dimensions : Nat
  deriving DecidableEq, Repr

/-- One store-mutating call issued by the `index` run, in program order. -/
inductive IndexEvent where
  | vecDelete (ids : List Nat)
  | vecInsert (ids : List Nat)
  | buildIndex
  | ftsDelete (id : Nat)
  | ftsCommit
  | ftsAdd (id : Nat)
  | fileMetaUpdate (path : String) (ids : List Nat)
  | fileMetaRemove (path : String)
  | saveDbMetadata (name : String) (dims : Nat)
  | writeMetadataJson
  deriving DecidableEq, Repr

/-- Inputs of one `index` run: the mode flags, the stored metadata, the model
the run was invoked with, and the outcome of the change scan — per-file old
chunk ids for changed and deleted files, and the new chunks (path and id
assigned at insertion). -/
structure IndexInput where
  isIncremental : Bool
  dryRun : Bool
  storedMeta : DbMetadata
  modelName : String
  modelDims : Nat
  filesEmpty : Bool
  filesToIndex : List (String × List Nat)
  filesToDelete : List (String × List Nat)
  newChunks : List (String × Nat)
  deriving Repr

/-- Model of `chunks_to_delete` (lines 543-553 and 581-587): old ids of changed files
then old ids of deleted files. -/
def oldChunkIds (inp : IndexInput) : List Nat :=
  (inp.filesToIndex.map Prod.snd).flatten ++
    (inp.filesToDelete.map Prod.snd).flatten

/-- The store-mutating calls of the storage phase (lines 530-667), in program
order: vector deletes, vector insert, `build_index`, FTS deletes with their
own commit (only when there are old chunks in an incremental run, lines
580-596), FTS adds, the final commit (line 609), file-metadata updates and
removals, `save_db_metadata`, and the `metadata.json` write. -/
def indexRunTrace (inp : IndexInput) : List IndexEvent :=
  (if inp.isIncremental && !(oldChunkIds inp).isEmpty then
      [IndexEvent.vecDelete (oldChunkIds inp)]
    else []) ++
  (if !inp.newChunks.isEmpty then
      [IndexEvent.vecInsert (inp.newChunks.map Prod.snd)]
    else []) ++
  [IndexEvent.buildIndex] ++
  (if inp.isIncremental && !(oldChunkIds inp).isEmpty then
      (oldChunkIds inp).map IndexEvent.ftsDelete ++ [IndexEvent.ftsCommit]
    else []) ++
  inp.newChunks.map (fun c => IndexEvent.ftsAdd c.2) ++
  [IndexEvent.ftsCommit] ++
  inp.filesToIndex.map (fun fe =>
    IndexEvent.fileMetaUpdate fe.1
      ((inp.newChunks.filter (fun c => c.1 == fe.1)).map Prod.snd)) ++
  inp.filesToDelete.map (fun fe => IndexEvent.fileMetaRemove fe.1) ++
  [IndexEvent.saveDbMetadata inp.modelName inp.modelDims,
    IndexEvent.writeMetadataJson]

/-- The `index` run (lines 222-717): early returns for an empty walk (line
354) and a dry run (line 359); then, in an incremental run, the model /
dimension check against the stored metadata (lines 368-387) which aborts
before the change scan; then the up-to-date early return (lines 426-432);
otherwise the storage phase runs and the run succeeds. -/
def indexRun (inp : IndexInput) : Except String Unit × List IndexEvent :=
  if inp.filesEmpty then (.ok (), [])
  else if inp.dryRun then (.ok (), [])
  else if inp.isIncremental &&
      (!(inp.storedMeta.model_name == inp.modelName) ||
        !(inp.storedMeta.dimensions == inp.modelDims)) then
    (.error "Model mismatch - clear database first", [])
  else if inp.isIncremental && inp.filesToIndex.isEmpty &&
      inp.filesToDelete.isEmpty then
    (.ok (), [])
  else
    (.ok (), indexRunTrace inp)

/-- Persisted state of one store directory: live vector-store chunk ids, FTS
documents, the path-to-chunk-ids file metadata, the stored `DbMetadata`, and
the `metadata.json` sidecar. -/
structure StoreState where
  liveChunks : List Nat
  ftsChunks : List Nat
  fileMeta : List (String × List Nat)
  dbMeta : DbMetadata
  metadataJson : Option DbMetadata
  deriving DecidableEq, Repr

/-- Effect of one store-mutating call on the persisted state. -/
def applyEvent (s : StoreState) : IndexEvent → StoreState
  | .vecDelete ids =>
      { s with liveChunks := s.liveChunks.filter (fun i => !(ids.contains i)) }
  | .vecInsert ids => { s with liveChunks := s.liveChunks ++ ids }
  | .buildIndex => s
  | .ftsDelete i =>
      { s with ftsChunks := s.ftsChunks.filter (fun j => !(j == i)) }
  | .ftsCommit => s
  | .ftsAdd i => { s with ftsChunks := s.ftsChunks ++ [i] }
  | .fileMetaUpdate p ids =>
      { s with fileMeta :=
          (p, ids) :: s.fileMeta.filter (fun e => !(e.1 == p)) }
  | .fileMetaRemove p =>
      { s with fileMeta := s.fileMeta.filter (fun e => !(e.1 == p)) }
  | .saveDbMetadata n d => { s with dbMeta := { model_name := n, dimensions := d } }
  | .writeMetadataJson => { s with metadataJson := some s.dbMeta }

/-- Replay of a run's store-mutating calls over a persisted state. -/
def applyEvents (s : StoreState) (evs : List IndexEvent) : StoreState :=
  evs.foldl applyEvent s

/-- Deletes and inserts on the vector store, the FTS store, or the file
metadata (the writes claim C1 is about). -/
def isStoreWrite : IndexEvent → Bool
  | .vecDelete _ => true
  | .vecInsert _ => true
  | .ftsDelete _ => true
  | .ftsAdd _ => true
  | .fileMetaUpdate _ _ => true
  | .fileMetaRemove _ => true
  | .saveDbMetadata _ _ => true
  | .writeMetadataJson => true
  | .buildIndex => false
  | .ftsCommit => false

/-- Claim C1.  An incremental run (one that reaches the metadata check:
files found, not a dry run) invoked with a model whose name or dimensions
differ from the stored `DbMetadata` fails with the model-mismatch error,
issues no store-mutating call at all, and leaves any persisted store state
exactly as it was. -/
theorem index_model_mismatch_aborts (inp : IndexInput) (s : StoreState)
    (hfiles : inp.filesEmpty = false) (hdry : inp.dryRun = false)
    (hinc : inp.isIncremental = true)
    (hmm : inp.storedMeta.model_name ≠ inp.modelName ∨
      inp.storedMeta.dimensions ≠ inp.modelDims) :
    (indexRun inp).1 = .error "Model mismatch - clear database first" ∧
      (indexRun inp).2 = [] ∧
      (∀ e ∈ (indexRun inp).2, isStoreWrite e = false) ∧
      applyEvents s (indexRun inp).2 = s := by
  have hc : (inp.isIncremental &&
      (!(inp.storedMeta.model_name == inp.modelName) ||
        !(inp.storedMeta.dimensions == inp.modelDims))) = true := by
    rcases hmm with h | h <;> simp [hinc, h]
  unfold indexRun
  simp [hfiles, hdry, hc, applyEvents]

/-- Incremental input whose stored metadata disagrees with the invoked model
in both name and dimensions. -/
def mismatchInput : IndexInput :=
  { isIncremental := true, dryRun := false
    storedMeta := { model_name := "jinaai/jina-embeddings-v2-base-code", dimensions := 768 }
    modelName := "mixedbread-ai/mxbai-embed-large-v1", modelDims := 1024
    filesEmpty := false, filesToIndex := [("a.rs", [1])]
    filesToDelete := [], newChunks := [] }

/-- A concrete persisted state for the C1 witness. -/
def mismatchState : StoreState :=
  { liveChunks := [1], ftsChunks := [1], fileMeta := [("a.rs", [1])]
    dbMeta := { model_name := "jinaai/jina-embeddings-v2-base-code", dimensions := 768 }
    metadataJson := some { model_name := "jinaai/jina-embeddings-v2-base-code", dimensions := 768 } }

/-- Witness for the C1 theorem at a concrete mismatching run and store. -/
theorem index_model_mismatch_aborts_witness :
    mismatchInput.filesEmpty = false ∧ mismatchInput.dryRun = false ∧
      mismatchInput.isIncremental = true ∧
      mismatchInput.storedMeta.model_name ≠ mismatchInput.modelName ∧
      ((indexRun mismatchInput).1 =
          .error "Model mismatch - clear database first" ∧
        (indexRun mismatchInput).2 = [] ∧
        (∀ e ∈ (indexRun mismatchInput).2, isStoreWrite e = false) ∧
        applyEvents mismatchState (indexRun mismatchInput).2 =
          mismatchState) :=
  ⟨rfl, rfl, rfl, by decide,
    index_model_mismatch_aborts mismatchInput mismatchState rfl rfl rfl
      (Or.inl (by decide))⟩

/-- Number of `FtsStore::commit` calls in a run's trace. -/
def countFtsCommits (evs : List IndexEvent) : Nat :=
  evs.countP (fun e => decide (e = IndexEvent.ftsCommit))

/-- FTS deletes and FTS inserts (the operations the final commit must
follow). -/
def isFtsOp : IndexEvent → Bool
  | .ftsDelete _ => true
  | .ftsAdd _ => true
  | _ => false

/-- A concrete incremental run with one changed file owning old chunks and
one new chunk: deletions are present, so the FTS index is committed twice. -/
def incrementalRunInput : IndexInput :=
  { isIncremental := true, dryRun := false
    storedMeta := { model_name := "jinaai/jina-embeddings-v2-base-code", dimensions := 768 }
    modelName := "jinaai/jina-embeddings-v2-base-code", modelDims := 768
    filesEmpty := false, filesToIndex := [("a.rs", [1, 2])]
    filesToDelete := [], newChunks := [("a.rs", 5)] }

/-- Claim C7, counterexample.  In an incremental run that deletes old chunks,
`FtsStore::commit` is called twice (line 594 after the deletions and line 609
after the inserts), not exactly once. -/
theorem fts_commit_counterexample :
    (indexRun incrementalRunInput).1 = .ok () ∧
      countFtsCommits (indexRun incrementalRunInput).2 = 2 := by
  exact ⟨rfl, by decide⟩

theorem countFtsCommits_append (a b : List IndexEvent) :
    countFtsCommits (a ++ b) = countFtsCommits a + countFtsCommits b :=
  List.countP_append _ a b

theorem countFtsCommits_eq_zero (evs : List IndexEvent)
    (h : ∀ e ∈ evs, e ≠ IndexEvent.ftsCommit) : countFtsCommits evs = 0 := by
  unfold countFtsCommits
  rw [List.countP_eq_zero]
  intro e he
  simpa using h e he

theorem countFtsCommits_indexRunTrace (inp : IndexInput) :
    countFtsCommits (indexRunTrace inp) =
      if inp.isIncremental && !(oldChunkIds inp).isEmpty then 2 else 1 := by
  have hP2 : countFtsCommits
      (if !inp.newChunks.isEmpty then
          [IndexEvent.vecInsert (inp.newChunks.map Prod.snd)]
        else []) = 0 := by
    by_cases h : !inp.newChunks.isEmpty
    · rw [if_pos h]
      rfl
    · rw [if_neg h]
      rfl
  have hP5 : countFtsCommits
      (inp.newChunks.map (fun c => IndexEvent.ftsAdd c.2)) = 0 := by
    apply countFtsCommits_eq_zero
    intro e he
    rcases List.mem_map.mp he with ⟨c, _, rfl⟩
    simp
  have hP7 : countFtsCommits
      (inp.filesToIndex.map (fun fe =>
        IndexEvent.fileMetaUpdate fe.1
          ((inp.newChunks.filter (fun c => c.1 == fe.1)).map Prod.snd))) = 0 := by
    apply countFtsCommits_eq_zero
    intro e he
    rcases List.mem_map.mp he with ⟨c, _, rfl⟩
    simp
  have hP8 : countFtsCommits
      (inp.filesToDelete.map (fun fe => IndexEvent.fileMetaRemove fe.1)) = 0 := by
    apply countFtsCommits_eq_zero
    intro e he
    rcases List.mem_map.mp he with ⟨c, _, rfl⟩
    simp
  unfold indexRunTrace
  by_cases hdel : (inp.isIncremental && !(oldChunkIds inp).isEmpty) = true
  · have hP4 : countFtsCommits
        ((oldChunkIds inp).map IndexEvent.ftsDelete ++ [IndexEvent.ftsCommit]) = 1 := by
      rw [countFtsCommits_append]
      have h0 : countFtsCommits ((oldChunkIds inp).map IndexEvent.ftsDelete) = 0 := by
        apply countFtsCommits_eq_zero
        intro e he
        rcases List.mem_map.mp he with ⟨c, _, rfl⟩
        simp
      rw [h0]
      rfl
    have hP1 : countFtsCommits [IndexEvent.vecDelete (oldChunkIds inp)] = 0 :=
      rfl
    have hP3 : countFtsCommits [IndexEvent.buildIndex] = 0 := rfl
    have hP6 : countFtsCommits [IndexEvent.ftsCommit] = 1 := rfl
    have hP9 : countFtsCommits
        [IndexEvent.saveDbMetadata inp.modelName inp.modelDims,
          IndexEvent.writeMetadataJson] = 0 := rfl
    rw [if_pos hdel]
    simp only [hdel, if_true, countFtsCommits_append, hP1, hP2, hP3, hP4,
      hP5, hP6, hP7, hP8, hP9]
  · have hP3 : countFtsCommits [IndexEvent.buildIndex] = 0 := rfl
    have hP6 : countFtsCommits [IndexEvent.ftsCommit] = 1 := rfl
    have hP9 : countFtsCommits
        [IndexEvent.saveDbMetadata inp.modelName inp.modelDims,
          IndexEvent.writeMetadataJson] = 0 := rfl
    have hPnil : countFtsCommits ([] : List IndexEvent) = 0 := rfl
    rw [if_neg hdel]
    simp only [hdel, Bool.false_eq_true, if_false, countFtsCommits_append,
      hPnil, hP2, hP3, hP5, hP6, hP7, hP8, hP9]

/-- Claim C7, amended.  In every run that reaches the storage phase (result
ok with a non-empty trace), the FTS index is committed exactly once when the
run has no old chunks to delete (full runs, and incremental runs without
changes to old files), and exactly twice when an incremental run deletes old
chunks — once between the deletions and the inserts (line 594) and once at
the end (line 609); the final commit comes after every FTS delete and every
FTS insert of the run.  Runs that end early (no files, dry run, up to date)
never touch the FTS index. -/
theorem fts_commit_amended (inp : IndexInput)
    (hok : (indexRun inp).1 = .ok ())
    (hne : (indexRun inp).2 ≠ []) :
    countFtsCommits (indexRun inp).2 =
        (if inp.isIncremental = true ∧ oldChunkIds inp ≠ [] then 2 else 1) ∧
      ∃ pre post, (indexRun inp).2 = pre ++ IndexEvent.ftsCommit :: post ∧
        ∀ e ∈ post, isFtsOp e = false ∧ e ≠ IndexEvent.ftsCommit := by
  by_cases h1 : inp.filesEmpty
  · exact absurd (by simp [indexRun, h1]) hne
  · by_cases h2 : inp.dryRun
    · exact absurd (by simp [indexRun, h1, h2]) hne
    · by_cases h3 : (inp.isIncremental &&
          (!(inp.storedMeta.model_name == inp.modelName) ||
            !(inp.storedMeta.dimensions == inp.modelDims))) = true
      · exfalso
        have : (indexRun inp).1 =
            .error "Model mismatch - clear database first" := by
          simp [indexRun, h1, h2, h3]
        rw [this] at hok
        exact Except.noConfusion hok
      · by_cases h4 : (inp.isIncremental && inp.filesToIndex.isEmpty &&
            inp.filesToDelete.isEmpty) = true
        · exact absurd (by simp [indexRun, h1, h2, h3, h4]) hne
        · have htr : (indexRun inp).2 = indexRunTrace inp := by
            simp [indexRun, h1, h2, h3, h4]
          rw [htr]
          constructor
          · rw [countFtsCommits_indexRunTrace]
            congr 1
            simp [List.isEmpty_iff]
          · refine ⟨(if inp.isIncremental && !(oldChunkIds inp).isEmpty then
                  [IndexEvent.vecDelete (oldChunkIds inp)]
                else []) ++
              (if !inp.newChunks.isEmpty then
                  [IndexEvent.vecInsert (inp.newChunks.map Prod.snd)]
                else []) ++
              [IndexEvent.buildIndex] ++
              (if inp.isIncremental && !(oldChunkIds inp).isEmpty then
                  (oldChunkIds inp).map IndexEvent.ftsDelete ++
                    [IndexEvent.ftsCommit]
                else []) ++
              inp.newChunks.map (fun c => IndexEvent.ftsAdd c.2),
              inp.filesToIndex.map (fun fe =>
                IndexEvent.fileMetaUpdate fe.1
                  ((inp.newChunks.filter
                      (fun c => c.1 == fe.1)).map Prod.snd)) ++
                inp.filesToDelete.map
                  (fun fe => IndexEvent.fileMetaRemove fe.1) ++
                [IndexEvent.saveDbMetadata inp.modelName inp.modelDims,
                  IndexEvent.writeMetadataJson], ?_, ?_⟩
            · unfold indexRunTrace
              simp [List.append_assoc]
            · intro e he
              rcases List.mem_append.mp he with he | he
              · rcases List.mem_append.mp he with he | he
                · rcases List.mem_map.mp he with ⟨c, _, rfl⟩
                  exact ⟨rfl, by simp⟩
                · rcases List.mem_map.mp he with ⟨c, _, rfl⟩
                  exact ⟨rfl, by simp⟩
              · rcases List.mem_cons.mp he with rfl | he
                · exact ⟨rfl, by simp⟩
                · rcases List.mem_cons.mp he with rfl | he
                  · exact ⟨rfl, by simp⟩
                  · simp at he

/-- Witness for the amended C7 theorem at the concrete two-commit run. -/
theorem fts_commit_amended_witness :
    (indexRun incrementalRunInput).1 = .ok () ∧
      (indexRun incrementalRunInput).2 ≠ [] ∧
      (countFtsCommits (indexRun incrementalRunInput).2 =
          (if incrementalRunInput.isIncremental = true ∧
              oldChunkIds incrementalRunInput ≠ [] then 2 else 1) ∧
        ∃ pre post, (indexRun incrementalRunInput).2 =
            pre ++ IndexEvent.ftsCommit :: post ∧
          ∀ e ∈ post, isFtsOp e = false ∧ e ≠ IndexEvent.ftsCommit) :=
  ⟨rfl, by decide,
    fts_commit_amended incrementalRunInput rfl (by decide)⟩

/-! ## DatabaseManager loading and metadata fallback (claim C10)
(`src/database/mod.rs` lines 93-135 and 344-368, `src/embed/embedder.rs`)

`Database::new` wraps the external `vectordb` store and is abstracted as
`openDb`; a failing open is warned about and skipped (lines 113-123).
`metadata.json` is modelled as `Option MetaJson`: `none` for a missing,
unreadable or unparseable file, `some` for parsed JSON whose two relevant
fields may each be absent.  Rust's Unicode `to_lowercase` in
`ModelType::from_str` is modelled by the ASCII `String.toLower`; every
matched literal is ASCII. -/

/-- Model of `embed::ModelType` (`src/embed/embedder.rs` lines 11-23). -/
inductive ModelType where
  | AllMiniLML6V2Q
  | BGESmallENV15Q
  | JinaEmbeddingsV2BaseCode
  | MxbaiEmbedLargeV1
  | MxbaiEmbedXSmallV1
  deriving DecidableEq, Repr

/-- Model of `ModelType::dimensions` (lines 37-46). -/
def ModelType.dimensions : ModelType → Nat
  | .AllMiniLML6V2Q => 384
  | .BGESmallENV15Q => 384
  | .MxbaiEmbedXSmallV1 => 384
  | .JinaEmbeddingsV2BaseCode => 768
  | .MxbaiEmbedLargeV1 => 1024

/-- Model of `impl Default for ModelType` (lines 144-149): the code-specialized Jina
model. -/
def ModelType.default : ModelType := .JinaEmbeddingsV2BaseCode

/-- ASCII lowercasing of a string, by kernel-reducible list mapping (models
Rust `str::to_lowercase`, whose matched inputs here are all ASCII). -/
def lowerAscii (s : String) : String := String.mk (s.data.map Char.toLower)

/-- Model of `ModelType::from_str` (lines 117-141). -/
def ModelType.from_str (s : String) : Option ModelType :=
  match lowerAscii s with
  | "minilm-l6" => some .AllMiniLML6V2Q
  | "allminiml6v2" => some .AllMiniLML6V2Q
  | "minilm-l6-q" => some .AllMiniLML6V2Q
  | "allminiml6v2q" => some .AllMiniLML6V2Q
  | "minilm-l12" => some .BGESmallENV15Q
  | "allminiml12v2" => some .BGESmallENV15Q
  | "minilm-l12-q" => some .BGESmallENV15Q
  | "allminiml12v2q" => some .BGESmallENV15Q
  | "paraphrase-minilm" => some .BGESmallENV15Q
  | "bge-small" => some .BGESmallENV15Q
  | "bgesmallenv15" => some .BGESmallENV15Q
  | "bge-small-q" => some .BGESmallENV15Q
  | "bgesmallenv15q" => some .BGESmallENV15Q
  | "bge-base" => some .JinaEmbeddingsV2BaseCode
  | "bgebaseenv15" => some .JinaEmbeddingsV2BaseCode
  | "bge-large" => some .JinaEmbeddingsV2BaseCode
  | "bgelargeenv15" => some .JinaEmbeddingsV2BaseCode
  | "nomic-v1" => some .JinaEmbeddingsV2BaseCode
  | "nomicembedtextv1" => some .JinaEmbeddingsV2BaseCode
  | "nomic-v1.5" => some .JinaEmbeddingsV2BaseCode
  | "nomicembedtextv15" => some .JinaEmbeddingsV2BaseCode
  | "nomic-v1.5-q" => some .JinaEmbeddingsV2BaseCode
  | "nomicembedtextv15q" => some .JinaEmbeddingsV2BaseCode
  | "jina-code" => some .JinaEmbeddingsV2BaseCode
  | "jinaembeddingsv2basecode" => some .JinaEmbeddingsV2BaseCode
  | "e5-multilingual" => some .BGESmallENV15Q
  | "multilinguale5small" => some .BGESmallENV15Q
  | "mxbai-large" => some .MxbaiEmbedLargeV1
  | "mxbaiembedlargev1" => some .MxbaiEmbedLargeV1
  | "mxbai-xsmall" => some .MxbaiEmbedXSmallV1
  | "mxbaiembedxsmallv1" => some .MxbaiEmbedXSmallV1
  | "mixedbread-ai/mxbai-embed-xsmall-v1" => some .MxbaiEmbedXSmallV1
  | "mxbai-embed-xsmall-v1" => some .MxbaiEmbedXSmallV1
  | "modernbert-large" => some .JinaEmbeddingsV2BaseCode
  | "modernbertembedlarge" => some .JinaEmbeddingsV2BaseCode
  | _ => none

/-- A parsed `metadata.json` restricted to the two fields
`DatabaseManager::read_metadata` looks at; each may be absent. -/
structure MetaJson where
  model_short_name : Option String
  dimensions : Option Nat
  deriving DecidableEq, Repr

/-- Model of `DatabaseManager::read_metadata` (`src/database/mod.rs` lines 344-368):
`none` for a missing or unreadable or unparseable file; otherwise the model
field falls back to `"minilm-l6"` and the dimensions field to 384, and an
unknown model name falls back to `ModelType::default`. -/
def read_metadata (file : Option MetaJson) : Option (ModelType × Nat) :=
  match file with
  | none => none
  | some json =>
      let model_name := json.model_short_name.getD "minilm-l6"
      let dims := json.dimensions.getD 384
      some ((ModelType.from_str model_name).getD ModelType.default, dims)

/-- Model of `DatabaseManager::load` (lines 93-135): error when no database paths were
discovered; read the first path's metadata, defaulting to
`(ModelType::default, 384)` when `read_metadata` returns `None`; open every
discovered database with those dimensions, skipping (with a warning) any that
fails; error only when none could be opened. -/
def DatabaseManager.load (dbPaths : List String) (firstMeta : Option MetaJson)
    (openDb : String → Nat → Option Unit) :
    Except String (ModelType × Nat × List String) :=
  if dbPaths.isEmpty then .error "No databases found"
  else
    let md := (read_metadata firstMeta).getD (ModelType.default, 384)
    let loaded := dbPaths.filter (fun p => (openDb p md.2).isSome)
    if loaded.isEmpty then .error "Failed to load any databases"
    else .ok (md.1, md.2, loaded)

/-- Claim C10, counterexample.  For a `metadata.json` that parses but lacks
both fields, `load` does not use `ModelType::default`: `read_metadata` falls
back to the string `"minilm-l6"`, which parses to `AllMiniLML6V2Q`, a model
different from the default Jina model, and `load` proceeds with it (and 384
dimensions) without error. -/
theorem load_missing_fields_counterexample :
    read_metadata (some { model_short_name := none, dimensions := none }) =
        some (ModelType.AllMiniLML6V2Q, 384) ∧
      ModelType.AllMiniLML6V2Q ≠ ModelType.default ∧
      DatabaseManager.load ["proj/.demongrep.db"]
          (some { model_short_name := none, dimensions := none })
          (fun _ _ => some ()) =
        .ok (ModelType.AllMiniLML6V2Q, 384, ["proj/.demongrep.db"]) :=
  ⟨rfl, by decide, rfl⟩

/-- Claim C10, amended.  When `metadata.json` is missing or unreadable,
`load` silently proceeds with `ModelType::default` and 384 dimensions; when
it parses but lacks the model and dimensions fields, `load` proceeds with the
`"minilm-l6"` fallback (`AllMiniLML6V2Q`) and 384 dimensions; in every case
`load` succeeds (opening every discovered database) rather than raising the
documented model/dimension hard error. -/
theorem load_metadata_fallback (dbPaths : List String)
    (openDb : String → Nat → Option Unit)
    (hne : dbPaths ≠ []) (hopen : ∀ p d, (openDb p d).isSome = true) :
    DatabaseManager.load dbPaths none openDb =
        .ok (ModelType.default, 384, dbPaths) ∧
      DatabaseManager.load dbPaths
          (some { model_short_name := none, dimensions := none }) openDb =
        .ok (ModelType.AllMiniLML6V2Q, 384, dbPaths) ∧
      ∀ fm : Option MetaJson, ∃ mt dims ps,
        DatabaseManager.load dbPaths fm openDb = .ok (mt, dims, ps) := by
  have h0 : dbPaths.isEmpty = false := by
    cases dbPaths with
    | nil => exact absurd rfl hne
    | cons p ps => rfl
  have hfil : ∀ d : Nat,
      dbPaths.filter (fun p => (openDb p d).isSome) = dbPaths :=
    fun d => List.filter_eq_self.mpr (fun a _ => hopen a d)
  have hok : ∀ fm : Option MetaJson,
      DatabaseManager.load dbPaths fm openDb =
        .ok (((read_metadata fm).getD (ModelType.default, 384)).1,
          ((read_metadata fm).getD (ModelType.default, 384)).2, dbPaths) := by
    intro fm
    unfold DatabaseManager.load
    rw [if_neg (by simp [h0])]
    simp only [hfil]
    rw [if_neg (by simp [List.isEmpty_iff, hne])]
  refine ⟨?_, ?_, ?_⟩
  · rw [hok none]
    rfl
  · rw [hok (some { model_short_name := none, dimensions := none })]
    rfl
  · intro fm
    exact ⟨_, _, _, hok fm⟩

/-- Witness for the amended C10 theorem: one discovered local database whose
opens always succeed. -/
theorem load_metadata_fallback_witness :
    (["proj/.demongrep.db"] : List String) ≠ [] ∧
      (∀ (p : String) (d : Nat),
        ((fun _ _ => some ()) p d : Option Unit).isSome = true) ∧
      DatabaseManager.load ["proj/.demongrep.db"] none (fun _ _ => some ()) =
        .ok (ModelType.default, 384, ["proj/.demongrep.db"]) :=
  ⟨by decide, fun p d => rfl,
    (load_metadata_fallback ["proj/.demongrep.db"] (fun _ _ => some ())
        (by decide) (fun p d => rfl)).1⟩

/-- Witness for the amended C2 theorem at the concrete duplicate-key
stores. -/
theorem search_all_amended_witness :
    (DatabaseManager.search_all searchAllCexStores 2 0).Pairwise
        (fun a b => b.score ≤ a.score) ∧
      DatabaseManager.search_all searchAllCexStores 2 0 =
        ((insertionSort scoreDescLe
            (gatherResults searchAllCexStores (2 + 0))).drop 0).take 2 ∧
      ∀ r ∈ DatabaseManager.search_all searchAllCexStores 2 0,
        r ∈ gatherResults searchAllCexStores (2 + 0) :=
  search_all_amended searchAllCexStores 2 0

end Demongrep
